import Mathlib

/-!
Verification of the call-signature binding and validation engine in
`src/pydantic/decorator.py` (the `validate_arguments` decorator).

The embedding follows the source closely:

* `Value` / `Ty` / `coerce` model the raw call values and the external
  type-coercion engine (spec section 6; the engine itself lives in
  `pydantic.main`, outside `src/`).
* `Sig` mirrors the grouped parameter buckets the decorator computes
  (`positional_only`, `positional_or_keyword`, `var_positional`,
  `keyword_only`, `var_keyword`).
* `bindCommon` / `probeBind` / `fullBind` model Python's
  `inspect.Signature.bind_partial` / `bind` (the stdlib collaborator the
  decorator calls), following CPython's `Signature._bind` algorithm.
* `validate_positional`, `validate_keyword`, `validate_positional_only`,
  `validate_multi` are the four validator stages of `SignatureCheck`,
  translated line by line from the source.
* `signatureCheck`, `modelValidate` and `applyCall` assemble the per-call
  pipeline of `apply`.
-/

set_option autoImplicit false

namespace PydanticDecorator

/-- Raw runtime values flowing through a call: integers, strings, tuples
(the shape of a bound variadic-positional bucket) and string-keyed dicts
(the shape of a bound variadic-keyword bucket). -/
inductive Value where
  | vint (n : Int)
  | vstr (s : String)
  | vtup (l : List Value)
  | vdict (l : List (String × Value))

/-- Scalar declared types: the permissive `any` placeholder used when a
parameter has no annotation, plus `int` and `str`. -/
inductive STy where
  | any
  | int
  | str
deriving DecidableEq, Repr

/-- Declared field types: a scalar annotation, or the collapsed variadic
field types `Tuple[t, ...]` / `Dict[str, t]` the decorator builds for
`*args` / `**kwargs` parameters from the scalar element annotation `t`. -/
inductive Ty where
  | sc (t : STy)
  | tup (t : STy)
  | dict (t : STy)
deriving DecidableEq, Repr

/-- Accumulating decimal parser over a character list: fails on the first
non-digit character. -/
def natOfDigitsAux (acc : Nat) : List Char → Option Nat
  | [] => some acc
  | c :: cs =>
      if c.isDigit then natOfDigitsAux (acc * 10 + (c.toNat - '0'.toNat)) cs
      else none

/-- The decimal value of a non-empty all-digit character list. -/
def natOfDigits : List Char → Option Nat
  | [] => none
  | c :: cs => natOfDigitsAux 0 (c :: cs)

/-- `int(string)`-style parsing: an optional leading minus sign followed by
one or more decimal digits. -/
def strToInt? (s : String) : Option Int :=
  match s.data with
  | '-' :: cs => (natOfDigits cs).map (fun n => -(n : Int))
  | cs => (natOfDigits cs).map (fun n => (n : Int))

/-- Modelled from the spec: the scalar case of the external type-coercion
engine (`coerce(fieldName, declaredType, rawValue) → Value` or a per-field
error, spec section 6), instantiated with pydantic-like behaviour on the
small value universe: `any` passes values through, `int` accepts integers
and integer-formatted strings, `str` accepts strings. The real engine
lives in `pydantic.main` / `pydantic.validators`, not under `src/`. -/
def coerceScalar (t : STy) (v : Value) : Except String Value :=
  match t, v with
  | .any, v => .ok v
  | .int, .vint n => .ok (.vint n)
  | .int, .vstr s =>
      match strToInt? s with
      | some n => .ok (.vint n)
      | none => .error "value is not a valid integer"
  | .int, _ => .error "value is not a valid integer"
  | .str, .vstr s => .ok (.vstr s)
  | .str, _ => .error "str type expected"

/-- Elementwise coercion of a sequence (the variadic-positional field type
`Tuple[t, ...]`); the first failing element's reason is reported. -/
def coerceList (t : STy) : List Value → Except String (List Value)
  | [] => .ok []
  | v :: vs =>
      match coerceScalar t v, coerceList t vs with
      | .ok v2, .ok vs2 => .ok (v2 :: vs2)
      | .error e, _ => .error e
      | _, .error e => .error e

/-- Valuewise coercion of a string-keyed mapping (the variadic-keyword
field type `Dict[str, t]`); the first failing value's reason is
reported. -/
def coerceEntries (t : STy) : List (String × Value) →
    Except String (List (String × Value))
  | [] => .ok []
  | (k, v) :: vs =>
      match coerceScalar t v, coerceEntries t vs with
      | .ok v2, .ok vs2 => .ok ((k, v2) :: vs2)
      | .error e, _ => .error e
      | _, .error e => .error e

/-- Modelled from the spec: the external type-coercion engine on field
types (spec section 6): scalars coerce directly, the variadic sequence /
mapping types coerce elementwise and demand a tuple / dict value. -/
def coerce (t : Ty) (v : Value) : Except String Value :=
  match t, v with
  | .sc t, v => coerceScalar t v
  | .tup t, .vtup l =>
      match coerceList t l with
      | .ok l2 => .ok (.vtup l2)
      | .error e => .error e
  | .tup _, _ => .error "value is not a valid tuple"
  | .dict t, .vdict l =>
      match coerceEntries t l with
      | .ok l2 => .ok (.vdict l2)
      | .error e => .error e
  | .dict _, _ => .error "value is not a valid dict"

/-- The five parameter kinds of `inspect.Parameter`. -/
inductive PKind where
  | posOnly
  | posOrKw
  | varPos
  | kwOnly
  | varKw
deriving DecidableEq, Repr

/-- A declared non-variadic parameter: name, declared type (after
`coalesce(annotation, Any)`) and optional default
(`coalesce(default, ...)`, `none` meaning required). -/
structure PDecl where
  name : String
  ty : Ty
  default : Option Value

/-- The grouped signature exactly as the decorator computes it from
`groupby(fields, key=itemgetter('kind'))`: five buckets in the fixed kind
order, with at most one variadic-positional and one variadic-keyword
parameter (the two `assert` statements in the source). -/
structure Sig where
  posOnly : List PDecl
  posOrKw : List PDecl
  varPos : Option (String × STy)
  kwOnly : List PDecl
  varKw : Option (String × STy)

/-- The view of a parameter used by Python's binding algorithm: its name,
kind, and whether it declares a default. -/
structure Param where
  name : String
  kind : PKind
  hasDefault : Bool

/-- The ordered parameter list of the signature, as `sig.parameters`
presents it to `Signature._bind`. -/
def sigParams (s : Sig) : List Param :=
  s.posOnly.map (fun p => ⟨p.name, .posOnly, p.default.isSome⟩)
    ++ s.posOrKw.map (fun p => ⟨p.name, .posOrKw, p.default.isSome⟩)
    ++ (s.varPos.map (fun v => Param.mk v.1 .varPos false)).toList
    ++ s.kwOnly.map (fun p => ⟨p.name, .kwOnly, p.default.isSome⟩)
    ++ (s.varKw.map (fun v => Param.mk v.1 .varKw false)).toList

/-- An ordered string-keyed map (a Python `dict` preserving insertion
order). -/
abbrev Bindings := List (String × Value)

/-- The keys of an ordered map, in order. -/
def keys (l : Bindings) : List String := l.map Prod.fst

/-- `dict.pop(k)`: the value stored at the first occurrence of `k`,
together with the map with that entry removed; `none` when `k` is absent. -/
def popKey (k : String) : Bindings → Option (Value × Bindings)
  | [] => none
  | (k2, v) :: rest =>
      if k2 = k then some (v, rest)
      else (popKey k rest).map (fun p => (p.1, (k2, v) :: p.2))

/-- `dict.get`-style lookup by key (first occurrence). -/
def lookupB (k : String) (l : Bindings) : Option Value :=
  (l.find? (fun kv => kv.1 = k)).map Prod.snd

/-- The `TypeError` conditions of CPython's `Signature._bind`. The
decorator only ever inspects whether a bind raised, never which message,
so the payloads here are only informative. -/
inductive BindErr where
  | tooManyPositional
  | multipleValues (name : String)
  | posOnlyAsKeyword (name : String)
  | missingArgument (name : String)
  | unexpectedKeyword (name : String)
deriving DecidableEq, Repr

/-- Phase 1 of CPython's `Signature._bind`: walk the positional values and
the parameter list together. Returns the positionally-bound arguments (in
insertion order) and the parameter list left for the keyword phase
(CPython's `chain(parameters_ex, parameters)`). `isPart` is the `partial`
flag (`True` for `bind_partial`). `kwKeys` are the keys of the keyword
arguments, consulted but not consumed in this phase. -/
def bindPosLoop (isPart : Bool) (kwKeys : List String) :
    List Param → List Value → Except BindErr (Bindings × List Param)
  | ps, [] =>
      -- no more positional arguments: CPython examines one more parameter
      match ps with
      | [] => .ok ([], [])
      | p :: rest =>
          if p.kind = .varPos then .ok ([], rest)
          else if kwKeys.contains p.name then
            if p.kind = .posOnly then .error (.posOnlyAsKeyword p.name)
            else .ok ([], p :: rest)
          else if p.kind = .varKw ∨ p.hasDefault then .ok ([], p :: rest)
          else if isPart then .ok ([], p :: rest)
          else .error (.missingArgument p.name)
  | [], _ :: _ => .error .tooManyPositional
  | p :: ps, v :: vs =>
      if p.kind = .varKw ∨ p.kind = .kwOnly then .error .tooManyPositional
      else if p.kind = .varPos then .ok ([(p.name, .vtup (v :: vs))], ps)
      else if kwKeys.contains p.name ∧ p.kind ≠ .posOnly then
        .error (.multipleValues p.name)
      else
        match bindPosLoop isPart kwKeys ps vs with
        | .ok (acc, rem) => .ok ((p.name, v) :: acc, rem)
        | .error e => .error e

/-- Phase 2 of CPython's `Signature._bind`: walk the remaining parameters,
popping keyword arguments by name; leftovers are collected by the
variadic-keyword parameter when one exists, and otherwise raise. `acc` is
the arguments map built so far, `kwParam` the memorized variadic-keyword
parameter name. -/
def bindKwLoop (isPart : Bool) :
    List Param → Bindings → Bindings → Option String → Except BindErr Bindings
  | [], kwargs, acc, kwParam =>
      match kwargs with
      | [] => .ok acc
      | (k, _) :: _ =>
          match kwParam with
          | some n => .ok (acc ++ [(n, .vdict kwargs)])
          | none => .error (.unexpectedKeyword k)
  | p :: rest, kwargs, acc, kwParam =>
      if p.kind = .varKw then bindKwLoop isPart rest kwargs acc (some p.name)
      else if p.kind = .varPos then bindKwLoop isPart rest kwargs acc kwParam
      else
        match popKey p.name kwargs with
        | none =>
            if ¬isPart ∧ ¬p.hasDefault then .error (.missingArgument p.name)
            else bindKwLoop isPart rest kwargs acc kwParam
        | some (v, kwargs2) =>
            if p.kind = .posOnly then .error (.posOnlyAsKeyword p.name)
            else bindKwLoop isPart rest kwargs2 (acc ++ [(p.name, v)]) kwParam

/-- CPython's `Signature._bind(args, kwargs, partial=isPart)`: phase 1 on
the positional values, then phase 2 on the keyword values, producing the
ordered `BoundArguments.arguments` map. -/
def bindCommon (isPart : Bool) (s : Sig) (args : List Value) (kwargs : Bindings) :
    Except BindErr Bindings :=
  match bindPosLoop isPart (keys kwargs) (sigParams s) args with
  | .ok (acc, rem) => bindKwLoop isPart rem kwargs acc none
  | .error e => .error e

/-- `sig.bind_partial(*args, **kwargs).arguments`. -/
def probeBind (s : Sig) (args : List Value) (kwargs : Bindings) : Except BindErr Bindings :=
  bindCommon true s args kwargs

/-- `sig.bind(*args, **kwargs).arguments` (the full bind: every required
parameter must receive a value). -/
def fullBind (s : Sig) (args : List Value) (kwargs : Bindings) : Except BindErr Bindings :=
  bindCommon false s args kwargs

/-- `sig_pos = tuple(positional_only) + tuple(positional_or_keyword)`. -/
def sigPosNames (s : Sig) : List String :=
  s.posOnly.map PDecl.name ++ s.posOrKw.map PDecl.name

/-- `sig_kw = set(positional_or_keyword) | set(keyword_only)` (membership
view of the set). -/
def sigKwNames (s : Sig) : List String :=
  s.posOrKw.map PDecl.name ++ s.kwOnly.map PDecl.name

/-- The positional-only parameter names. -/
def posOnlyNames (s : Sig) : List String :=
  s.posOnly.map PDecl.name

/-- Insert a string into a sorted list, keeping it sorted. -/
def insertSorted (x : String) : List String → List String
  | [] => [x]
  | y :: ys => if x ≤ y then x :: y :: ys else y :: insertSorted x ys

/-- Python's `sorted` on a list of names. -/
def sortNames (l : List String) : List String :=
  l.foldr insertSorted []

/-- The classified errors the decorator raises per call. The source raises
each of them as a `TypeError` with a formatted message; here they carry the
structured data the message is built from (`build_message_helper` plus the
counts / sorted name lists). `validationErr` is the aggregated
`pydantic.ValidationError` of the coercion step, a list of
`(fieldName, reason)` pairs. -/
inductive DecoErr where
  | arity (expected given : Nat)
  | unexpectedKeyword (names : List String)
  | posOnlyKeyword (names : List String)
  | duplicateArgument (names : List String)
  | validationErr (errors : List (String × String))
deriving DecidableEq, Repr

/-- Stage 1, `SignatureCheck.validate_positional`: partial-bind the
positional values alone; on any bind failure raise the arity error
`f'{len(sig_pos)} positional arguments expected but {len(args)} given'`. -/
def validate_positional (s : Sig) (args : List Value) : Except DecoErr Bindings :=
  match probeBind s args [] with
  | .ok b => .ok b
  | .error _ => .error (.arity (sigPosNames s).length args.length)

/-- The set `unexpected = set(kwargs) - sig_kw - set(positional_only)`
computed by stage 2, as a duplicate-free key list in insertion order
(Python sorts it before use, so the set's iteration order is irrelevant). -/
def unexpectedOf (s : Sig) (kwargs : Bindings) : List String :=
  (keys kwargs).eraseDups.filter
    (fun k => ¬(sigKwNames s).contains k ∧ ¬(posOnlyNames s).contains k)

/-- Stage 2, `SignatureCheck.validate_keyword`: partial-bind the keyword
values alone; on bind failure raise the unexpected-keyword error when
`unexpected` is non-empty, and otherwise pass the raw keyword map through. -/
def validate_keyword (s : Sig) (kwargs : Bindings) : Except DecoErr Bindings :=
  match probeBind s [] kwargs with
  | .ok b => .ok b
  | .error _ =>
      let unexpected := unexpectedOf s kwargs
      if unexpected.isEmpty then .ok kwargs
      else .error (.unexpectedKeyword (sortNames unexpected))

/-- The set `pos_only = set(kwargs) & set(positional_only)` computed by
stage 3 (from stage 2's output map), as a duplicate-free key list. -/
def posOnlyMisuseOf (s : Sig) (kwargs2 : Bindings) : List String :=
  (keys kwargs2).eraseDups.filter (fun k => (posOnlyNames s).contains k)

/-- Stage 3, `SignatureCheck.validate_positional_only`: re-attempt the
keyword partial bind on stage 2's output; on failure raise the
positional-only-as-keyword error when a positional-only name is among the
keys, and otherwise pass the map through. -/
def validate_positional_only (s : Sig) (kwargs2 : Bindings) : Except DecoErr Bindings :=
  match probeBind s [] kwargs2 with
  | .ok b => .ok b
  | .error _ =>
      let pos_only := posOnlyMisuseOf s kwargs2
      if pos_only.isEmpty then .ok kwargs2
      else .error (.posOnlyKeyword (sortNames pos_only))

/-- The set `multi = set(args) & set(kwargs)` computed by stage 4 from
stage 1's and stage 2's output maps, as a duplicate-free key list. -/
def multiOf (args2 kwargs2 : Bindings) : List String :=
  (keys args2).eraseDups.filter (fun k => (keys kwargs2).contains k)

/-- `{**a, **b}`: every key of `a` in order (its value replaced by `b`'s
when `b` also has the key), then the keys of `b` not in `a`, in order. -/
def pyMergeDicts (a b : Bindings) : Bindings :=
  a.map (fun kv => (kv.1, (lookupB kv.1 b).getD kv.2))
    ++ b.filter (fun kv => ¬(keys a).contains kv.1)

/-- Stage 4, `SignatureCheck.validate_multi`: fully bind stage 1's output
values (`*args.values()`) together with stage 2's output map; on failure
raise the multiple-values error when a name is bound on both sides, and
otherwise pass the merged map `{**args, **kwargs}` through. -/
def validate_multi (s : Sig) (args2 kwargs2 : Bindings) : Except DecoErr Bindings :=
  match fullBind s (args2.map Prod.snd) kwargs2 with
  | .ok b => .ok b
  | .error _ =>
      let multi := multiOf args2 kwargs2
      if multi.isEmpty then .ok (pyMergeDicts args2 kwargs2)
      else .error (.duplicateArgument (sortNames multi))

/-- Modelled from the spec: the validator execution machinery of
`SignatureCheck(args=args, kwargs=kwargs)` (pydantic's `BaseModel` /
`validator` plumbing in `pydantic.main`, not under `src/`). Per spec
section 4.3 the four stages run once per call, fully sequential and
fail-fast, each later stage reading the earlier stages' validated outputs
(`values['args']`, `values['kwargs']`). The model's `args` and `kwargs`
fields — the only ones `apply` reads — are the outputs of stages 1 and 2. -/
def signatureCheck (s : Sig) (args : List Value) (kwargs : Bindings) :
    Except DecoErr (Bindings × Bindings) :=
  match validate_positional s args with
  | .error e => .error e
  | .ok a2 =>
      match validate_keyword s kwargs with
      | .error e => .error e
      | .ok k2 =>
          match validate_positional_only s k2 with
          | .error e => .error e
          | .ok _ =>
              match validate_multi s a2 k2 with
              | .error e => .error e
              | .ok _ => .ok (a2, k2)

/-- One schema field of the `create_model` call: name, declared type and
default (`none` = required). -/
structure FieldSpec where
  name : String
  ty : Ty
  default : Option Value

/-- The ordered field list of the generated model: the declared buckets in
kind order, with the variadic-positional parameter collapsed to a
`Tuple[t, ...]` field defaulting to `()` and the variadic-keyword
parameter collapsed to a `Dict[str, t]` field defaulting to `{}`. -/
def schemaFields (s : Sig) : List FieldSpec :=
  s.posOnly.map (fun p => ⟨p.name, p.ty, p.default⟩)
    ++ s.posOrKw.map (fun p => ⟨p.name, p.ty, p.default⟩)
    ++ (s.varPos.map (fun v => FieldSpec.mk v.1 (.tup v.2) (some (.vtup [])))).toList
    ++ s.kwOnly.map (fun p => ⟨p.name, p.ty, p.default⟩)
    ++ (s.varKw.map (fun v => FieldSpec.mk v.1 (.dict v.2) (some (.vdict [])))).toList

/-- The per-field errors of one model validation: for each declared field
in order, a coercion failure of its supplied value or a missing-required
failure; then one closed-schema error per supplied key that is no declared
field (`Config.extra = Extra.forbid`). -/
def collectErrors (fields : List FieldSpec) (supplied : Bindings) : List (String × String) :=
  (fields.filterMap (fun f =>
      match lookupB f.name supplied with
      | some v =>
          match coerce f.ty v with
          | .ok _ => none
          | .error r => some (f.name, r)
      | none =>
          match f.default with
          | some _ => none
          | none => some (f.name, "field required")))
    ++ (supplied.filter (fun kv => fields.all (fun f => f.name ≠ kv.1))).map
        (fun kv => (kv.1, "extra fields not permitted"))

/-- The field assignments of a successful model validation: supplied
fields carry their coerced values, unsupplied fields their defaults. Only
meaningful when `collectErrors` is empty. -/
def modelAssign (fields : List FieldSpec) (supplied : Bindings) : Bindings :=
  fields.filterMap (fun f =>
    match lookupB f.name supplied with
    | some v =>
        match coerce f.ty v with
        | .ok v2 => some (f.name, v2)
        | .error _ => none
    | none => f.default.map (fun d => (f.name, d)))

/-- Modelled from the spec: validating `model(**values)` for the closed
schema built by `create_model` (pydantic's `BaseModel` validation, not
under `src/`). Per spec sections 4.2, 4.3 and 7, every supplied field is
coerced by the external engine, unsupplied required fields and undeclared
extra fields are errors, and all per-field failures are aggregated into
one error; on success `dict(model(...))` yields every field's value. -/
def modelValidate (fields : List FieldSpec) (supplied : Bindings) :
    Except (List (String × String)) Bindings :=
  let errs := collectErrors fields supplied
  if errs.isEmpty then .ok (modelAssign fields supplied) else .error errs

/-- The value splatted by `*sigcheck.args.get(vp_name, ())`: the bound
variadic-positional bucket is a tuple by construction, and an absent
bucket contributes nothing. -/
def asTupleList : Option Value → List Value
  | some (.vtup l) => l
  | some v => [v]
  | none => []

/-- The map splatted by `**sigcheck.kwargs.get(vk_name, {})`: the bound
variadic-keyword bucket is a dict by construction, and an absent bucket
contributes nothing. -/
def asDictList : Option Value → Bindings
  | some (.vdict l) => l
  | some _ => []
  | none => []

/-- The call-reconstruction step of `apply`: from stage 1's output `a2`,
stage 2's output `k2` and the validated model instance `instd`, rebuild
the forwarded call in the caller's original shape —
`func(*upd_arg.values(), *sigcheck.args.get(vp_name, ()), **upd_kw,
**sigcheck.kwargs.get(vk_name, {}))`. The result is the final positional
value list and keyword map handed to the original callable. -/
def reconstruct (s : Sig) (a2 k2 instd : Bindings) : List Value × Bindings :=
  let vpN := s.varPos.map Prod.fst
  let vkN := s.varKw.map Prod.fst
  let updArg := (a2.filter (fun kv => vpN ≠ some kv.1)).map
    (fun kv => (kv.1, (lookupB kv.1 instd).getD kv.2))
  let updKw := (k2.filter (fun kv => vkN ≠ some kv.1)).map
    (fun kv => (kv.1, (lookupB kv.1 instd).getD kv.2))
  let vpRaw := asTupleList (vpN.bind (fun n => lookupB n a2))
  let vkRaw := asDictList (vkN.bind (fun n => lookupB n k2))
  (updArg.map Prod.snd ++ vpRaw, updKw ++ vkRaw)

/-- The wrapped callable `apply(*args, **kwargs)`: run the four-stage
`SignatureCheck`, validate/coerce through the generated model
(`dict(model(**sigcheck.args, **sigcheck.kwargs))`), then forward the
reconstructed call. -/
def applyCall (s : Sig) (args : List Value) (kwargs : Bindings) :
    Except DecoErr (List Value × Bindings) :=
  match signatureCheck s args kwargs with
  | .error e => .error e
  | .ok (a2, k2) =>
      match modelValidate (schemaFields s) (a2 ++ k2) with
      | .error errs => .error (.validationErr errs)
      | .ok instd => .ok (reconstruct s a2 k2 instd)

/-- The entries the keyword phase of `Signature._bind` pops out of the
keyword map, in parameter order (a specification device for reasoning
about `bindKwLoop`; not part of the source). -/
def kwPhase : List Param → Bindings → Bindings
  | [], _ => []
  | p :: rest, kwargs =>
      if p.kind = .varKw ∨ p.kind = .varPos then kwPhase rest kwargs
      else
        match popKey p.name kwargs with
        | none => kwPhase rest kwargs
        | some (v, kwargs2) => (p.name, v) :: kwPhase rest kwargs2

/-- The keyword entries left over after the keyword phase of
`Signature._bind` popped every matching parameter name (a specification
device for reasoning about `bindKwLoop`; not part of the source). -/
def kwLeft : List Param → Bindings → Bindings
  | [], kwargs => kwargs
  | p :: rest, kwargs =>
      if p.kind = .varKw ∨ p.kind = .varPos then kwLeft rest kwargs
      else
        match popKey p.name kwargs with
        | none => kwLeft rest kwargs
        | some (_, kwargs2) => kwLeft rest kwargs2

/-- The example signature of spec section 8:
`def f(a: int, /, b: int, *args: int, c: int, **kw: int)` — positional-only
`a`, positional-or-keyword `b`, variadic-positional `*args`, required
keyword-only `c`, variadic-keyword `**kw`. -/
def sig8 : Sig :=
  { posOnly := [⟨"a", .sc .int, none⟩], posOrKw := [⟨"b", .sc .int, none⟩],
    varPos := some ("args", .int), kwOnly := [⟨"c", .sc .int, none⟩],
    varKw := some ("kw", .int) }

/-- The section 8 signature without its variadic-keyword parameter:
`def f(a: int, /, b: int, *args: int, c: int)`. -/
def sigNoKw : Sig :=
  { posOnly := [⟨"a", .sc .int, none⟩], posOrKw := [⟨"b", .sc .int, none⟩],
    varPos := some ("args", .int), kwOnly := [⟨"c", .sc .int, none⟩],
    varKw := none }

/-- A one-parameter signature `def f(b: int)` with no variadic
parameters. -/
def sigOneB : Sig :=
  { posOnly := [], posOrKw := [⟨"b", .sc .int, none⟩],
    varPos := none, kwOnly := [], varKw := none }

/-- A signature `def f(*args: int)` whose only parameter is
variadic-positional. -/
def sigStarInt : Sig :=
  { posOnly := [], posOrKw := [], varPos := some ("args", .int),
    kwOnly := [], varKw := none }

/-- A two-parameter signature `def f(b: int, d: int)` used to exhibit two
simultaneous coercion failures. -/
def sigTwoInts : Sig :=
  { posOnly := [], posOrKw := [⟨"b", .sc .int, none⟩, ⟨"d", .sc .int, none⟩],
    varPos := none, kwOnly := [], varKw := none }

/-- A signature `def f(b: int, *args: int)` mixing one coercible
positional-or-keyword parameter with a variadic-positional bucket. -/
def sigBStar : Sig :=
  { posOnly := [], posOrKw := [⟨"b", .sc .int, none⟩],
    varPos := some ("args", .int), kwOnly := [], varKw := none }

/-- The parameter list without its trailing variadic-keyword parameter (a
specification device for reasoning about signatures that declare one; not
part of the source). -/
def prefixParams (s : Sig) : List Param :=
  s.posOnly.map (fun p => ⟨p.name, .posOnly, p.default.isSome⟩)
    ++ s.posOrKw.map (fun p => ⟨p.name, .posOrKw, p.default.isSome⟩)
    ++ (s.varPos.map (fun v => Param.mk v.1 .varPos false)).toList
    ++ s.kwOnly.map (fun p => ⟨p.name, .kwOnly, p.default.isSome⟩)

/-- The variadic-keyword entry the keyword phase appends when leftovers
remain (a specification device for reasoning about `bindKwLoop`; not part
of the source). -/
def vkTail (vkn : String) (l : Bindings) : Bindings :=
  if l.isEmpty then [] else [(vkn, .vdict l)]

/-- The parameter names a keyword phase over `ps` would pop (skipping the
variadic parameters), in order; a specification device for reasoning about
`bindKwLoop`, not part of the source. -/
def popNames : List Param → List String
  | [] => []
  | p :: rest =>
      if p.kind = .varKw ∨ p.kind = .varPos then popNames rest
      else p.name :: popNames rest

/-! ## Theorems -/

/-- Claim C1: for the section 8 signature, whose declared types accept the
given values, the call `(1, 2, 3, 4, c=5, extra=6)` succeeds and the
original callable receives exactly `a=1, b=2, args=(3,4), c=5,
kw={"extra": 6}` — the wrapper forwards the positional values
`(1, 2, 3, 4)` and keywords `c=5, extra=6`, and binding that forwarded
call against the same signature assigns exactly those parameter values. -/
theorem claim_C1 :
    applyCall sig8 [.vint 1, .vint 2, .vint 3, .vint 4]
        [("c", .vint 5), ("extra", .vint 6)] =
      .ok ([.vint 1, .vint 2, .vint 3, .vint 4],
        [("c", .vint 5), ("extra", .vint 6)]) ∧
    fullBind sig8 [.vint 1, .vint 2, .vint 3, .vint 4]
        [("c", .vint 5), ("extra", .vint 6)] =
      .ok [("a", .vint 1), ("b", .vint 2), ("args", .vtup [.vint 3, .vint 4]),
        ("c", .vint 5), ("kw", .vdict [("extra", .vint 6)])] :=
  ⟨rfl, rfl⟩

/-- Claim C2 is false as stated: on `def f(*args: int)` called with the
single positional value `"3"`, the coerced variadic-positional sequence is
`(3,)` (the schema coerces the string to an integer), but the wrapper
forwards the raw bound sequence `("3",)` — `apply` splats
`sigcheck.args.get(vp_name, ())`, not the coerced field value. -/
theorem claim_C2_cex :
    applyCall sigStarInt [.vstr "3"] [] = .ok ([.vstr "3"], []) ∧
    modelValidate (schemaFields sigStarInt) [("args", .vtup [.vstr "3"])] =
      .ok [("args", .vtup [.vint 3])] ∧
    Value.vstr "3" ≠ Value.vint 3 :=
  ⟨rfl, rfl, fun h => Value.noConfusion h⟩

/-- Claim C3 is false as stated: on the section 8 signature with the
keyword arguments `a=1, z=9` the positional-only name `a` is among the
keyword keys and the keyword partial bind fails, yet the call fails with
`UnexpectedKeywordError(["z"])` from stage 2, not with
`PositionalOnlyAsKeywordError(["a"])` — the unexpected-keyword check runs
first. -/
theorem claim_C3_cex :
    posOnlyMisuseOf sig8 [("a", .vint 1), ("z", .vint 9)] = ["a"] ∧
    probeBind sig8 [] [("a", .vint 1), ("z", .vint 9)] =
      .error (.posOnlyAsKeyword "a") ∧
    applyCall sig8 [] [("a", .vint 1), ("z", .vint 9)] =
      .error (.unexpectedKeyword ["z"]) ∧
    DecoErr.unexpectedKeyword ["z"] ≠ .posOnlyKeyword ["a"] :=
  ⟨rfl, rfl, rfl, fun h => DecoErr.noConfusion h⟩

/-- Claim C5 is false as stated: on the section 8 signature called as
`(1, 2)` with required `c` omitted, stages 1–3 pass, the full bind fails
(a genuine missing-required-argument condition, no parameter doubly
supplied), yet stage 4 (`validate_multi`) does not fail — it swallows the
bind error and returns the merged map. -/
theorem claim_C5_cex :
    validate_positional sig8 [.vint 1, .vint 2] =
      .ok [("a", .vint 1), ("b", .vint 2)] ∧
    validate_keyword sig8 [] = .ok [] ∧
    validate_positional_only sig8 [] = .ok [] ∧
    fullBind sig8 [.vint 1, .vint 2] [] = .error (.missingArgument "c") ∧
    multiOf [("a", .vint 1), ("b", .vint 2)] [] = [] ∧
    validate_multi sig8 [("a", .vint 1), ("b", .vint 2)] [] =
      .ok [("a", .vint 1), ("b", .vint 2)] :=
  ⟨rfl, rfl, rfl, rfl, rfl, rfl⟩

/-- Claim C7 is false as stated: on `def f(b: int)` called as
`(1, 2, z=1)`, the keyword partial bind fails and `unexpected = {"z"}` is
non-empty, yet the call fails with the stage 1 arity error (1 positional
argument expected but 2 given), not with `UnexpectedKeywordError(["z"])` —
stage 1 runs first and is fail-fast. -/
theorem claim_C7_cex :
    probeBind sigOneB [] [("z", .vint 1)] = .error (.unexpectedKeyword "z") ∧
    unexpectedOf sigOneB [("z", .vint 1)] = ["z"] ∧
    applyCall sigOneB [.vint 1, .vint 2] [("z", .vint 1)] =
      .error (.arity 1 2) ∧
    DecoErr.arity 1 2 ≠ .unexpectedKeyword ["z"] :=
  ⟨rfl, rfl, rfl, fun h => DecoErr.noConfusion h⟩

/-- Claim C8 is false as stated: on the section 8 signature without its
variadic-keyword parameter, called with `b` supplied positionally and by
keyword plus the unrecognized keyword `z`, the duplicated-name set is
`{"b"}` and the full bind would fail, yet the call fails with
`UnexpectedKeywordError(["z"])` from stage 2, not with
`DuplicateArgumentError(["b"])` — stage 2 runs first and is fail-fast. -/
theorem claim_C8_cex :
    validate_positional sigNoKw [.vint 1, .vint 2] =
      .ok [("a", .vint 1), ("b", .vint 2)] ∧
    multiOf [("a", .vint 1), ("b", .vint 2)] [("b", .vint 9), ("z", .vint 1)] =
      ["b"] ∧
    fullBind sigNoKw [.vint 1, .vint 2] [("b", .vint 9), ("z", .vint 1)] =
      .error (.multipleValues "b") ∧
    applyCall sigNoKw [.vint 1, .vint 2] [("b", .vint 9), ("z", .vint 1)] =
      .error (.unexpectedKeyword ["z"]) ∧
    DecoErr.unexpectedKeyword ["z"] ≠ .duplicateArgument ["b"] :=
  ⟨rfl, rfl, rfl, rfl, fun h => DecoErr.noConfusion h⟩

/-- Claim C10 is false as stated: the section 8 signature declares the
variadic-keyword parameter `**kw`, yet calling it with the positional-only
name `a` as a keyword raises `PositionalOnlyAsKeywordError(["a"])` — the
name is not collected into the variadic-keyword mapping. -/
theorem claim_C10_cex :
    sig8.varKw = some ("kw", .int) ∧
    applyCall sig8 [] [("a", .vint 1)] = .error (.posOnlyKeyword ["a"]) :=
  ⟨rfl, rfl⟩

/-- Claim C4: the four binding stages run sequentially per call and are
fail-fast — whenever an earlier stage fails, its classified error is the
one the caller observes and no later stage's error is produced or
surfaced. -/
theorem claim_C4 (s : Sig) (args : List Value) (kwargs : Bindings) :
    (∀ e, validate_positional s args = .error e →
      applyCall s args kwargs = .error e) ∧
    (∀ a2 e, validate_positional s args = .ok a2 →
      validate_keyword s kwargs = .error e →
      applyCall s args kwargs = .error e) ∧
    (∀ a2 k2 e, validate_positional s args = .ok a2 →
      validate_keyword s kwargs = .ok k2 →
      validate_positional_only s k2 = .error e →
      applyCall s args kwargs = .error e) ∧
    (∀ a2 k2 k3 e, validate_positional s args = .ok a2 →
      validate_keyword s kwargs = .ok k2 →
      validate_positional_only s k2 = .ok k3 →
      validate_multi s a2 k2 = .error e →
      applyCall s args kwargs = .error e) := by
  refine ⟨?_, ?_, ?_, ?_⟩ <;> intros <;>
    simp [applyCall, signatureCheck, *]

/-- Witness for claim C4 at a concrete call: on `def f(b: int)` called as
`(1, 2, z=1)` both stage 1 (arity) and stage 2 (unexpected keyword) would
fail, and the call surfaces exactly stage 1's error. -/
theorem claim_C4_witness :
    applyCall sigOneB [.vint 1, .vint 2] [("z", .vint 1)] =
      .error (.arity 1 2) :=
  (claim_C4 sigOneB [.vint 1, .vint 2] [("z", .vint 1)]).1 _ rfl

/-- Claim C9: for every call that passes all four binding stages, the
model-validation step aggregates rather than failing fast — if any field
fails, the call raises one single error carrying the full list of
`(fieldName, reason)` pairs collected over all fields. -/
theorem claim_C9 (s : Sig) (args : List Value) (kwargs : Bindings)
    (a2 k2 : Bindings)
    (h : signatureCheck s args kwargs = .ok (a2, k2))
    (hne : collectErrors (schemaFields s) (a2 ++ k2) ≠ []) :
    applyCall s args kwargs =
      .error (.validationErr (collectErrors (schemaFields s) (a2 ++ k2))) := by
  simp [applyCall, h, modelValidate, hne]

/-- Witness for claim C9 at a concrete call: on `def f(b: int, d: int)`
called with two non-coercible string values, one single error lists both
failing fields. -/
theorem claim_C9_witness :
    signatureCheck sigTwoInts [] [("b", .vstr "x"), ("d", .vstr "y")] =
      .ok ([], [("b", .vstr "x"), ("d", .vstr "y")]) ∧
    applyCall sigTwoInts [] [("b", .vstr "x"), ("d", .vstr "y")] =
      .error (.validationErr [("b", "value is not a valid integer"),
        ("d", "value is not a valid integer")]) :=
  ⟨rfl, claim_C9 sigTwoInts [] [("b", .vstr "x"), ("d", .vstr "y")]
    [] [("b", .vstr "x"), ("d", .vstr "y")] rfl (by decide)⟩

/-- Claim C7 (amended): for every call in which stage 1 passes and whose
keyword partial bind fails, when `unexpected = keys(kwargs) − (posOrKw ∪
kwOnly ∪ posOnly names)` is non-empty the call fails with
`UnexpectedKeywordError` carrying the offending names in sorted order. -/
theorem claim_C7 (s : Sig) (args : List Value) (kwargs : Bindings)
    (a2 : Bindings) (e : BindErr)
    (h1 : validate_positional s args = .ok a2)
    (h2 : probeBind s [] kwargs = .error e)
    (h3 : unexpectedOf s kwargs ≠ []) :
    applyCall s args kwargs =
      .error (.unexpectedKeyword (sortNames (unexpectedOf s kwargs))) := by
  simp [applyCall, signatureCheck, h1, validate_keyword, h2, h3]

/-- Witness for claim C7 at the spec section 8 example: calling
`def f(a: int, /, b: int, *args: int, c: int)` (no `**kw`) with the
unrecognized keyword `z=1` raises `UnexpectedKeywordError(["z"])`. -/
theorem claim_C7_witness :
    applyCall sigNoKw [] [("z", .vint 1)] =
      .error (.unexpectedKeyword ["z"]) :=
  claim_C7 sigNoKw [] [("z", .vint 1)] [] (.unexpectedKeyword "z")
    rfl rfl (by decide)

/-- Claim C3 (amended): for every call in which stage 1 passes, the
keyword partial bind fails, stage 2's `unexpected` set is empty, and a
positional-only parameter name appears among the keyword keys, the call
fails with `PositionalOnlyAsKeywordError` carrying the sorted offending
names. -/
theorem claim_C3 (s : Sig) (args : List Value) (kwargs : Bindings)
    (a2 : Bindings) (e : BindErr)
    (h1 : validate_positional s args = .ok a2)
    (h2 : probeBind s [] kwargs = .error e)
    (h3 : unexpectedOf s kwargs = [])
    (h4 : posOnlyMisuseOf s kwargs ≠ []) :
    applyCall s args kwargs =
      .error (.posOnlyKeyword (sortNames (posOnlyMisuseOf s kwargs))) := by
  simp [applyCall, signatureCheck, h1, validate_keyword,
    validate_positional_only, h2, h3, h4]

/-- Witness for claim C3 at the spec section 8 example: calling the
section 8 signature with the positional-only name `a` as a keyword raises
`PositionalOnlyAsKeywordError(["a"])`. -/
theorem claim_C3_witness :
    applyCall sig8 [] [("a", .vint 1)] = .error (.posOnlyKeyword ["a"]) :=
  claim_C3 sig8 [] [("a", .vint 1)] [] (.posOnlyAsKeyword "a")
    rfl rfl rfl (by decide)

/-- Claim C8 (amended): for every call in which stages 1–3 pass, the full
bind fails, and the intersection of the positionally-bound names with the
keyword-bound names is non-empty, the call fails with
`DuplicateArgumentError` carrying the sorted duplicated names. -/
theorem claim_C8 (s : Sig) (args : List Value) (kwargs : Bindings)
    (a2 k2 k3 : Bindings) (e : BindErr)
    (h1 : validate_positional s args = .ok a2)
    (h2 : validate_keyword s kwargs = .ok k2)
    (h3 : validate_positional_only s k2 = .ok k3)
    (h4 : fullBind s (a2.map Prod.snd) k2 = .error e)
    (h5 : multiOf a2 k2 ≠ []) :
    applyCall s args kwargs =
      .error (.duplicateArgument (sortNames (multiOf a2 k2))) := by
  simp [applyCall, signatureCheck, h1, h2, h3, validate_multi, h4, h5]

/-- Witness for claim C8 at the spec section 8 example: supplying `b=2`
positionally and `b=9` by keyword raises `DuplicateArgumentError(["b"])`. -/
theorem claim_C8_witness :
    applyCall sig8 [.vint 1, .vint 2] [("b", .vint 9), ("c", .vint 5)] =
      .error (.duplicateArgument ["b"]) :=
  claim_C8 sig8 [.vint 1, .vint 2] [("b", .vint 9), ("c", .vint 5)]
    [("a", .vint 1), ("b", .vint 2)] [("b", .vint 9), ("c", .vint 5)]
    [("b", .vint 9), ("c", .vint 5)] (.multipleValues "b")
    rfl rfl rfl rfl (by decide)

/-- A declared field that is required (no default) and receives no value
contributes a `field required` entry to the model validation errors. -/
theorem mem_collectErrors_of_required (fields : List FieldSpec)
    (supplied : Bindings) (n : String) (t : Ty)
    (hf : FieldSpec.mk n t none ∈ fields)
    (hnot : lookupB n supplied = none) :
    (n, "field required") ∈ collectErrors fields supplied := by
  unfold collectErrors
  refine List.mem_append_left _ (List.mem_filterMap.mpr ?_)
  exact ⟨⟨n, t, none⟩, hf, by simp [hnot]⟩

/-- Claim C5 (amended): for every call in which stages 1–3 pass, the full
bind fails, and no parameter was supplied both positionally and by
keyword, stage 4 does not fail — it returns the merged map — and the
missing-required-argument condition surfaces in the model-validation step,
whose aggregated error names the unfilled required parameter. -/
theorem claim_C5 (s : Sig) (args : List Value) (kwargs : Bindings)
    (a2 k2 k3 : Bindings) (e : BindErr) (n : String) (t : Ty)
    (h1 : validate_positional s args = .ok a2)
    (h2 : validate_keyword s kwargs = .ok k2)
    (h3 : validate_positional_only s k2 = .ok k3)
    (h4 : fullBind s (a2.map Prod.snd) k2 = .error e)
    (h5 : multiOf a2 k2 = [])
    (hf : FieldSpec.mk n t none ∈ schemaFields s)
    (hnot : lookupB n (a2 ++ k2) = none) :
    validate_multi s a2 k2 = .ok (pyMergeDicts a2 k2) ∧
    ∃ errs, applyCall s args kwargs = .error (.validationErr errs) ∧
      (n, "field required") ∈ errs := by
  have hstage4 : validate_multi s a2 k2 = .ok (pyMergeDicts a2 k2) := by
    simp [validate_multi, h4, h5]
  have hmem := mem_collectErrors_of_required (schemaFields s) (a2 ++ k2) n t hf hnot
  have hne : collectErrors (schemaFields s) (a2 ++ k2) ≠ [] := by
    intro h0
    rw [h0] at hmem
    exact (List.not_mem_nil _) hmem
  refine ⟨hstage4, collectErrors (schemaFields s) (a2 ++ k2), ?_, hmem⟩
  simp [applyCall, signatureCheck, h1, h2, h3, hstage4, modelValidate, hne]

/-- Witness for claim C5 at the spec section 8 example: omitting required
`c` makes stage 4 succeed with the merged map while the model validation
step fails naming `c`. -/
theorem claim_C5_witness :
    validate_multi sig8 [("a", .vint 1), ("b", .vint 2)] [] =
      .ok [("a", .vint 1), ("b", .vint 2)] ∧
    ∃ errs, applyCall sig8 [.vint 1, .vint 2] [] =
      .error (.validationErr errs) ∧ ("c", "field required") ∈ errs :=
  claim_C5 sig8 [.vint 1, .vint 2] [] [("a", .vint 1), ("b", .vint 2)] [] []
    (.missingArgument "c") "c" (.sc .int) rfl rfl rfl rfl rfl
    (by simp [schemaFields, sig8]) rfl

/-- With no keyword arguments to pop and the partial flag set, the keyword
phase binds nothing and returns the accumulated arguments unchanged. -/
theorem bindKwLoop_true_nilKw (ps : List Param) :
    ∀ (acc : Bindings) (kp : Option String),
      bindKwLoop true ps [] acc kp = .ok acc := by
  induction ps with
  | nil => intro acc kp; rfl
  | cons p rest ih =>
      intro acc kp
      unfold bindKwLoop
      by_cases h1 : p.kind = .varKw
      · simp [h1, ih]
      · by_cases h2 : p.kind = .varPos
        · simp [h1, h2, ih]
        · simp [h1, h2, popKey, ih]

/-- With no positional values at all and the partial flag set, phase 1
always succeeds, binding nothing. -/
theorem bindPosLoop_true_nil_args (kwKeys : List String) (ps : List Param)
    (hpo : ∀ p ∈ ps, p.kind = .posOnly → p.name ∉ kwKeys) :
    ∃ rem, bindPosLoop true kwKeys ps [] = .ok ([], rem) ∧
      (rem = ps ∨ ∃ p rest, ps = p :: rest ∧ p.kind = .varPos ∧ rem = rest) := by
  cases ps with
  | nil => exact ⟨[], rfl, Or.inl rfl⟩
  | cons p rest =>
      unfold bindPosLoop
      by_cases h1 : p.kind = .varPos
      · exact ⟨rest, by simp [h1], Or.inr ⟨p, rest, rfl, h1, rfl⟩⟩
      · by_cases h2 : p.name ∈ kwKeys
        · have h3 : p.kind ≠ .posOnly := fun hk =>
            hpo p (List.mem_cons_self p rest) hk h2
          exact ⟨p :: rest, by simp [h1, h2, h3], Or.inl rfl⟩
        · by_cases h4 : p.kind = .varKw ∨ p.hasDefault
          · exact ⟨p :: rest, by simp [h1, h2, h4], Or.inl rfl⟩
          · exact ⟨p :: rest, by simp [h1, h2, h4], Or.inl rfl⟩

/-- Phase 1 succeeds with no keyword keys when the positional values fit
into the positional-capable prefix of the parameter list. -/
theorem bindPosLoop_ok_of_le (core : List Param) :
    ∀ (tail : List Param) (args : List Value),
      (∀ p ∈ core, p.kind = .posOnly ∨ p.kind = .posOrKw) →
      args.length ≤ core.length →
      ∃ out, bindPosLoop true [] (core ++ tail) args = .ok out := by
  induction core with
  | nil =>
      intro tail args _ hlen
      rw [List.length_nil, Nat.le_zero, List.length_eq_zero] at hlen
      subst hlen
      obtain ⟨rem, h, _⟩ := bindPosLoop_true_nil_args [] ([] ++ tail)
        (by simp)
      exact ⟨([], rem), h⟩
  | cons p rest ih =>
      intro tail args hcore hlen
      cases args with
      | nil =>
          obtain ⟨rem, h, _⟩ := bindPosLoop_true_nil_args [] ((p :: rest) ++ tail)
            (by simp)
          exact ⟨([], rem), h⟩
      | cons v vs =>
          have hp := hcore p (List.mem_cons_self p rest)
          obtain ⟨⟨acc, rem⟩, hout⟩ := ih tail vs
            (fun q hq => hcore q (List.mem_cons_of_mem _ hq))
            (by simpa using hlen)
          refine ⟨((p.name, v) :: acc, rem), ?_⟩
          rw [List.cons_append]
          unfold bindPosLoop
          rcases hp with h | h <;> simp [h, hout]

/-- Phase 1 succeeds with no keyword keys whenever a variadic-positional
parameter follows the positional-capable prefix: it absorbs any excess. -/
theorem bindPosLoop_ok_varPos (core : List Param) :
    ∀ (vp : Param) (tail : List Param) (args : List Value),
      (∀ p ∈ core, p.kind = .posOnly ∨ p.kind = .posOrKw) →
      vp.kind = .varPos →
      ∃ out, bindPosLoop true [] (core ++ vp :: tail) args = .ok out := by
  induction core with
  | nil =>
      intro vp tail args _ hvp
      cases args with
      | nil =>
          obtain ⟨rem, h, _⟩ := bindPosLoop_true_nil_args [] ([] ++ vp :: tail)
            (by simp)
          exact ⟨([], rem), h⟩
      | cons v vs =>
          rw [List.nil_append]
          unfold bindPosLoop
          exact ⟨([(vp.name, .vtup (v :: vs))], tail), by simp [hvp]⟩
  | cons p rest ih =>
      intro vp tail args hcore hvp
      cases args with
      | nil =>
          obtain ⟨rem, h, _⟩ := bindPosLoop_true_nil_args []
            ((p :: rest) ++ vp :: tail) (by simp)
          exact ⟨([], rem), h⟩
      | cons v vs =>
          have hp := hcore p (List.mem_cons_self p rest)
          obtain ⟨⟨acc, rem⟩, hout⟩ := ih vp tail vs
            (fun q hq => hcore q (List.mem_cons_of_mem _ hq)) hvp
          refine ⟨((p.name, v) :: acc, rem), ?_⟩
          rw [List.cons_append]
          unfold bindPosLoop
          rcases hp with h | h <;> simp [h, hout]

/-- Phase 1 fails with `too many positional arguments` when the positional
values outnumber the positional-capable prefix and only keyword-side
parameters follow. -/
theorem bindPosLoop_overflow (core : List Param) :
    ∀ (tail : List Param) (args : List Value),
      (∀ p ∈ core, p.kind = .posOnly ∨ p.kind = .posOrKw) →
      (∀ p ∈ tail, p.kind = .kwOnly ∨ p.kind = .varKw) →
      core.length < args.length →
      bindPosLoop true [] (core ++ tail) args = .error .tooManyPositional := by
  induction core with
  | nil =>
      intro tail args _ htail hlen
      cases args with
      | nil => simp at hlen
      | cons v vs =>
          rw [List.nil_append]
          cases tail with
          | nil => rfl
          | cons q qt =>
              have hq := htail q (List.mem_cons_self q qt)
              unfold bindPosLoop
              rcases hq with h | h <;> simp [h]
  | cons p rest ih =>
      intro tail args hcore htail hlen
      cases args with
      | nil => simp at hlen
      | cons v vs =>
          have hp := hcore p (List.mem_cons_self p rest)
          have hrec := ih tail vs
            (fun q hq => hcore q (List.mem_cons_of_mem _ hq)) htail
            (by simpa using hlen)
          rw [List.cons_append]
          unfold bindPosLoop
          rcases hp with h | h <;> simp [h, hrec]

/-- With no variadic-positional parameter, the parameter list splits into
the positional-capable prefix and the keyword-only suffix. -/
theorem sigParams_decomp_none (s : Sig) (h : s.varPos = none) :
    sigParams s =
      (s.posOnly.map (fun p => ⟨p.name, .posOnly, p.default.isSome⟩)
        ++ s.posOrKw.map (fun p => ⟨p.name, .posOrKw, p.default.isSome⟩))
      ++ (s.kwOnly.map (fun p => ⟨p.name, .kwOnly, p.default.isSome⟩)
        ++ (s.varKw.map (fun v => Param.mk v.1 .varKw false)).toList) := by
  simp [sigParams, h]

/-- With a variadic-positional parameter, the parameter list splits around
it. -/
theorem sigParams_decomp_some (s : Sig) (nt : String × STy)
    (h : s.varPos = some nt) :
    sigParams s =
      (s.posOnly.map (fun p => ⟨p.name, .posOnly, p.default.isSome⟩)
        ++ s.posOrKw.map (fun p => ⟨p.name, .posOrKw, p.default.isSome⟩))
      ++ Param.mk nt.1 .varPos false ::
        (s.kwOnly.map (fun p => ⟨p.name, .kwOnly, p.default.isSome⟩)
          ++ (s.varKw.map (fun v => Param.mk v.1 .varKw false)).toList) := by
  simp [sigParams, h]

/-- Every parameter of the positional-capable prefix is positional-only or
positional-or-keyword. -/
theorem mem_prefix_kind (s : Sig) :
    ∀ p ∈ (s.posOnly.map (fun p => Param.mk p.name .posOnly p.default.isSome)
      ++ s.posOrKw.map (fun p => Param.mk p.name .posOrKw p.default.isSome)),
      p.kind = .posOnly ∨ p.kind = .posOrKw := by
  intro p hp
  rcases List.mem_append.mp hp with hp | hp <;>
    · obtain ⟨q, _, rfl⟩ := List.mem_map.mp hp
      simp
/-- Every parameter of the keyword-only suffix is keyword-only or
variadic-keyword. -/
theorem mem_suffix_kind (s : Sig) :
    ∀ p ∈ (s.kwOnly.map (fun p => Param.mk p.name .kwOnly p.default.isSome)
      ++ (s.varKw.map (fun v => Param.mk v.1 .varKw false)).toList),
      p.kind = .kwOnly ∨ p.kind = .varKw := by
  intro p hp
  rcases List.mem_append.mp hp with hp | hp
  · obtain ⟨q, _, rfl⟩ := List.mem_map.mp hp
    simp
  · cases hvk : s.varKw with
    | none => rw [hvk] at hp; simp at hp
    | some w =>
        rw [hvk] at hp
        simp at hp
        subst hp
        simp

/-- The positional-capable prefix has exactly `len(sig_pos)` parameters. -/
theorem prefix_length (s : Sig) :
    (s.posOnly.map (fun p => Param.mk p.name .posOnly p.default.isSome)
      ++ s.posOrKw.map (fun p => Param.mk p.name .posOrKw p.default.isSome)).length
      = (sigPosNames s).length := by
  simp [sigPosNames]

/-- Claim C6: stage 1 fails with the arity error — carrying the expected
positional count `len(sig_pos)` and the given count — exactly when the
positional values outnumber the declared positional capacity with no
variadic-positional parameter to absorb them, and never fails when the
values fit. -/
theorem claim_C6 (s : Sig) (args : List Value) :
    (s.varPos = none → (sigPosNames s).length < args.length →
      validate_positional s args =
        .error (.arity (sigPosNames s).length args.length)) ∧
    (s.varPos ≠ none ∨ args.length ≤ (sigPosNames s).length →
      ∃ b, validate_positional s args = .ok b) := by
  constructor
  · intro hvp hlen
    have hfail := bindPosLoop_overflow _ _ args (mem_prefix_kind s)
      (mem_suffix_kind s) (by rw [prefix_length]; exact hlen)
    rw [← sigParams_decomp_none s hvp] at hfail
    simp [validate_positional, probeBind, bindCommon, keys, hfail]
  · intro h
    cases hvp : s.varPos with
    | some nt =>
        obtain ⟨⟨acc, rem⟩, hok⟩ := bindPosLoop_ok_varPos _
          (Param.mk nt.1 .varPos false) _ args (mem_prefix_kind s) rfl
        rw [← sigParams_decomp_some s nt hvp] at hok
        refine ⟨acc, ?_⟩
        simp [validate_positional, probeBind, bindCommon, keys, hok,
          bindKwLoop_true_nilKw]
    | none =>
        rcases h with h | hlen
        · exact absurd hvp h
        · obtain ⟨⟨acc, rem⟩, hok⟩ := bindPosLoop_ok_of_le _ _ args
            (mem_prefix_kind s) (by rw [prefix_length]; exact hlen)
          rw [← sigParams_decomp_none s hvp] at hok
          refine ⟨acc, ?_⟩
          simp [validate_positional, probeBind, bindCommon, keys, hok,
            bindKwLoop_true_nilKw]

/-- Witness for claim C6: `def f(a, /, b, *args, c)` without its variadic
parameter would cap positional arity at 2, and indeed `def f(b: int)`
called with two positional values raises the arity error, while the
section 8 signature absorbs four positional values. -/
theorem claim_C6_witness :
    validate_positional sigOneB [.vint 1, .vint 2] = .error (.arity 1 2) ∧
    ∃ b, validate_positional sig8 [.vint 1, .vint 2, .vint 3, .vint 4] =
      .ok b :=
  ⟨(claim_C6 sigOneB [.vint 1, .vint 2]).1 rfl (by decide),
   (claim_C6 sig8 [.vint 1, .vint 2, .vint 3, .vint 4]).2
     (Or.inl (by simp [sig8]))⟩

/-- Claim C2 (amended): for every call that passes the four binding stages
and model validation, the forwarded call consists of exactly the names the
caller supplied — each supplied non-variadic argument replaced by its
coerced value, then the variadic-positional sequence appended as
originally bound (uncoerced), the keyword side likewise with the
originally-bound variadic-keyword mapping merged last, and no
schema-default value injected for any name the caller did not supply
(every forwarded keyword name is a stage-2-bound name). -/
theorem claim_C2 (s : Sig) (args : List Value) (kwargs : Bindings)
    (a2 k2 instd : Bindings)
    (h : signatureCheck s args kwargs = .ok (a2, k2))
    (hm : modelValidate (schemaFields s) (a2 ++ k2) = .ok instd) :
    applyCall s args kwargs = .ok
      ((a2.filter (fun kv => s.varPos.map Prod.fst ≠ some kv.1)).map
          (fun kv => (lookupB kv.1 instd).getD kv.2)
        ++ asTupleList ((s.varPos.map Prod.fst).bind (fun n => lookupB n a2)),
       (k2.filter (fun kv => s.varKw.map Prod.fst ≠ some kv.1)).map
          (fun kv => (kv.1, (lookupB kv.1 instd).getD kv.2))
        ++ asDictList ((s.varKw.map Prod.fst).bind (fun n => lookupB n k2))) ∧
    ∀ nm ∈ keys
        ((k2.filter (fun kv => s.varKw.map Prod.fst ≠ some kv.1)).map
          (fun kv => (kv.1, (lookupB kv.1 instd).getD kv.2))),
      nm ∈ keys k2 := by
  constructor
  · simp [applyCall, h, hm, reconstruct, List.map_map, Function.comp]
  · intro nm hnm
    simp only [keys, List.map_map, List.mem_map, Function.comp] at hnm ⊢
    obtain ⟨kv, hkv, rfl⟩ := hnm
    exact ⟨kv, (List.mem_filter.mp hkv).1, rfl⟩

/-- Witness for claim C2 at `def f(b: int, *args: int)` called with
`("1", "2", "3")`: the non-variadic `b` is forwarded coerced (`1`), while
the variadic bucket is forwarded as originally supplied (`"2", "3"`,
uncoerced). -/
theorem claim_C2_witness :
    applyCall sigBStar [.vstr "1", .vstr "2", .vstr "3"] [] =
      .ok ([.vint 1, .vstr "2", .vstr "3"], []) :=
  (claim_C2 sigBStar [.vstr "1", .vstr "2", .vstr "3"] []
    [("b", .vstr "1"), ("args", .vtup [.vstr "2", .vstr "3"])] []
    [("b", .vint 1), ("args", .vtup [.vint 2, .vint 3])] rfl rfl).1

/-- `popKey` fails exactly on absent keys. -/
theorem popKey_eq_none (k : String) (l : Bindings) :
    popKey k l = none ↔ k ∉ keys l := by
  induction l with
  | nil => simp [popKey, keys]
  | cons kv rest ih =>
      obtain ⟨k2, v⟩ := kv
      by_cases h : k2 = k
      · subst h
        simp [popKey, keys]
      · simp [popKey, keys, h, Ne.symm h, Option.map_eq_none', ih]

/-- A successful `popKey` implies the key was present. -/
theorem popKey_mem (k : String) (l : Bindings) (v : Value) (l2 : Bindings)
    (h : popKey k l = some (v, l2)) : k ∈ keys l := by
  by_contra hk
  rw [(popKey_eq_none k l).mpr hk] at h
  cases h

/-- `popKey` only removes entries: surviving keys were present before. -/
theorem popKey_keys_sub (k : String) : ∀ (l : Bindings) (v : Value)
    (l2 : Bindings), popKey k l = some (v, l2) → ∀ n ∈ keys l2, n ∈ keys l := by
  intro l
  induction l with
  | nil => intro v l2 h; cases h
  | cons kv rest ih =>
      intro v l2 h n hn
      obtain ⟨k2, w⟩ := kv
      by_cases hk : k2 = k
      · subst hk
        simp [popKey] at h
        rw [← h.2] at hn
        exact List.mem_cons_of_mem _ hn
      · have hdef : popKey k ((k2, w) :: rest) =
            (popKey k rest).map (fun p => (p.1, (k2, w) :: p.2)) := by
          simp [popKey, hk]
        rw [hdef] at h
        rcases hmap : popKey k rest with _ | ⟨v2, l3⟩
        · rw [hmap] at h; cases h
        · rw [hmap] at h
          simp only [Option.map_some', Option.some.injEq, Prod.mk.injEq] at h
          rw [← h.2] at hn
          simp only [keys, List.map_cons] at hn ⊢
          cases hn with
          | head => exact List.mem_cons_self _ _
          | tail _ hn => exact List.mem_cons_of_mem _ (ih v2 l3 hmap n hn)

/-- On a duplicate-free map, a successful `popKey` removes exactly the
popped key's entry. -/
theorem popKey_remove_of_nodup (k : String) : ∀ (l : Bindings),
    (keys l).Nodup → ∀ (v : Value) (l2 : Bindings),
    popKey k l = some (v, l2) →
    l2 = l.filter (fun kv => kv.1 ≠ k) := by
  intro l
  induction l with
  | nil => intro _ v l2 h; cases h
  | cons kv rest ih =>
      intro hnod v l2 h
      obtain ⟨k2, w⟩ := kv
      by_cases hk : k2 = k
      · subst hk
        simp [popKey] at h
        have hrest : ∀ kv ∈ rest, (kv : String × Value).1 ≠ k2 := by
          intro kv hkv he
          have : k2 ∈ keys rest := he ▸ List.mem_map_of_mem Prod.fst hkv
          exact (List.nodup_cons.mp (by simpa [keys] using hnod)).1 this
        rw [← h.2]
        have hself : rest.filter (fun kv => kv.1 ≠ k2) = rest :=
          List.filter_eq_self.mpr (fun kv hkv => by
            simpa using hrest kv hkv)
        simp only [ne_eq, decide_not] at hself
        simp [hself]
      · have hdef : popKey k ((k2, w) :: rest) =
            (popKey k rest).map (fun p => (p.1, (k2, w) :: p.2)) := by
          simp [popKey, hk]
        rw [hdef] at h
        rcases hmap : popKey k rest with _ | ⟨v2, l3⟩
        · rw [hmap] at h; cases h
        · rw [hmap] at h
          simp only [Option.map_some', Option.some.injEq, Prod.mk.injEq] at h
          have hnod2 : (keys rest).Nodup :=
            (List.nodup_cons.mp (by simpa [keys] using hnod)).2
          rw [← h.2, ih hnod2 v2 l3 hmap]
          simp [hk]

/-- Running the keyword phase over a parameter list ending in the
variadic-keyword parameter, with the partial flag set and no
positional-only name among the keyword keys, never fails: it pops the
matching names in parameter order and hands the leftovers to the
variadic-keyword bucket. -/
theorem bindKwLoop_run (vkn : String) (d : Bool) : ∀ (remA : List Param)
    (kwargs acc : Bindings),
    (∀ p ∈ remA, p.kind ≠ .varKw) →
    (∀ p ∈ remA, p.kind = .posOnly → p.name ∉ keys kwargs) →
    bindKwLoop true (remA ++ [⟨vkn, .varKw, d⟩]) kwargs acc none =
      .ok (acc ++ kwPhase remA kwargs ++ vkTail vkn (kwLeft remA kwargs)) := by
  intro remA
  induction remA with
  | nil =>
      intro kwargs acc _ _
      cases kwargs with
      | nil => simp [bindKwLoop, kwPhase, kwLeft, vkTail]
      | cons kv rest => simp [bindKwLoop, kwPhase, kwLeft, vkTail]
  | cons p rest ih =>
      intro kwargs acc hnovk hpo
      have hpk := hnovk p (List.mem_cons_self p rest)
      rw [List.cons_append]
      by_cases hvp : p.kind = .varPos
      · have hstep : bindKwLoop true (p :: (rest ++ [⟨vkn, .varKw, d⟩]))
            kwargs acc none =
            bindKwLoop true (rest ++ [⟨vkn, .varKw, d⟩]) kwargs acc none := by
          simp [bindKwLoop, hpk, hvp]
        rw [hstep, ih kwargs acc
          (fun q hq => hnovk q (List.mem_cons_of_mem _ hq))
          (fun q hq => hpo q (List.mem_cons_of_mem _ hq))]
        simp [kwPhase, kwLeft, hvp]
      · cases hpop : popKey p.name kwargs with
        | none =>
            have hstep : bindKwLoop true (p :: (rest ++ [⟨vkn, .varKw, d⟩]))
                kwargs acc none =
                bindKwLoop true (rest ++ [⟨vkn, .varKw, d⟩]) kwargs acc none := by
              simp [bindKwLoop, hpk, hvp, hpop]
            rw [hstep, ih kwargs acc
              (fun q hq => hnovk q (List.mem_cons_of_mem _ hq))
              (fun q hq => hpo q (List.mem_cons_of_mem _ hq))]
            simp [kwPhase, kwLeft, hpk, hvp, hpop]
        | some vl =>
            obtain ⟨v, kwargs2⟩ := vl
            have hpnotpo : p.kind ≠ .posOnly := fun hp =>
              hpo p (List.mem_cons_self p rest) hp (popKey_mem _ _ _ _ hpop)
            have hstep : bindKwLoop true (p :: (rest ++ [⟨vkn, .varKw, d⟩]))
                kwargs acc none =
                bindKwLoop true (rest ++ [⟨vkn, .varKw, d⟩]) kwargs2
                  (acc ++ [(p.name, v)]) none := by
              simp [bindKwLoop, hpk, hvp, hpop, hpnotpo]
            rw [hstep, ih kwargs2 (acc ++ [(p.name, v)])
              (fun q hq => hnovk q (List.mem_cons_of_mem _ hq))
              (fun q hq hq2 hmem => hpo q (List.mem_cons_of_mem _ hq) hq2
                (popKey_keys_sub _ _ _ _ hpop _ hmem))]
            simp [kwPhase, kwLeft, hpk, hvp, hpop]

/-- On a duplicate-free keyword map, the keyword-phase leftovers are
exactly the entries whose key matches no poppable parameter name. -/
theorem kwLeft_eq_filter : ∀ (remA : List Param) (kwargs : Bindings),
    (keys kwargs).Nodup →
    kwLeft remA kwargs =
      kwargs.filter (fun kv => ¬(popNames remA).contains kv.1) := by
  intro remA
  induction remA with
  | nil =>
      intro kwargs _
      simp [kwLeft, popNames]
  | cons p rest ih =>
      intro kwargs hnod
      by_cases hv : p.kind = .varKw ∨ p.kind = .varPos
      · simpa [kwLeft, popNames, hv] using ih kwargs hnod
      · cases hpop : popKey p.name kwargs with
        | none =>
            have hmem : p.name ∉ keys kwargs := (popKey_eq_none _ _).mp hpop
            have hstep : kwLeft (p :: rest) kwargs = kwLeft rest kwargs := by
              simp [kwLeft, hv, hpop]
            rw [hstep, ih kwargs hnod]
            refine (List.filter_congr ?_)
            intro kv hkv
            have hne : kv.1 ≠ p.name := fun he =>
              hmem (he ▸ List.mem_map_of_mem Prod.fst hkv)
            simp [popNames, hv, hne]
        | some vl =>
            obtain ⟨v, kwargs2⟩ := vl
            have hk2 : kwargs2 = kwargs.filter (fun kv => kv.1 ≠ p.name) :=
              popKey_remove_of_nodup _ _ hnod _ _ hpop
            have hnod2 : (keys kwargs2).Nodup := by
              rw [hk2]
              exact ((List.filter_sublist _).map Prod.fst).nodup hnod
            have hstep : kwLeft (p :: rest) kwargs = kwLeft rest kwargs2 := by
              simp [kwLeft, hv, hpop]
            rw [hstep, ih kwargs2 hnod2, hk2, List.filter_filter]
            refine (List.filter_congr ?_)
            intro kv hkv
            by_cases he : kv.1 = p.name <;> simp [popNames, hv, he]
/-- Every key the keyword phase pops comes from a non-variadic,
non-positional-only parameter of the walked list and was present in the
keyword map. -/
theorem kwPhase_keys : ∀ (remA : List Param) (kwargs : Bindings),
    (∀ p ∈ remA, p.kind = .posOnly → p.name ∉ keys kwargs) →
    ∀ nm ∈ keys (kwPhase remA kwargs),
      (∃ p ∈ remA, p.name = nm ∧ p.kind ≠ .posOnly ∧ p.kind ≠ .varKw ∧
        p.kind ≠ .varPos) ∧ nm ∈ keys kwargs := by
  intro remA
  induction remA with
  | nil =>
      intro kwargs _ nm hnm
      simp [kwPhase, keys] at hnm
  | cons p rest ih =>
      intro kwargs hpo nm hnm
      by_cases hv : p.kind = .varKw ∨ p.kind = .varPos
      · rw [show kwPhase (p :: rest) kwargs = kwPhase rest kwargs from by
          simp [kwPhase, hv]] at hnm
        obtain ⟨⟨q, hq, hqs⟩, hkw⟩ := ih kwargs
          (fun q hq => hpo q (List.mem_cons_of_mem _ hq)) nm hnm
        exact ⟨⟨q, List.mem_cons_of_mem _ hq, hqs⟩, hkw⟩
      · cases hpop : popKey p.name kwargs with
        | none =>
            rw [show kwPhase (p :: rest) kwargs = kwPhase rest kwargs from by
              simp [kwPhase, hv, hpop]] at hnm
            obtain ⟨⟨q, hq, hqs⟩, hkw⟩ := ih kwargs
              (fun q hq => hpo q (List.mem_cons_of_mem _ hq)) nm hnm
            exact ⟨⟨q, List.mem_cons_of_mem _ hq, hqs⟩, hkw⟩
        | some vl =>
            obtain ⟨v, kwargs2⟩ := vl
            rw [show kwPhase (p :: rest) kwargs =
                (p.name, v) :: kwPhase rest kwargs2 from by
              simp [kwPhase, hv, hpop]] at hnm
            simp only [keys, List.map_cons] at hnm
            have hvk : p.kind ≠ .varKw := fun h => hv (Or.inl h)
            have hvp : p.kind ≠ .varPos := fun h => hv (Or.inr h)
            cases hnm with
            | head =>
                have hpnotpo : p.kind ≠ .posOnly := fun hp =>
                  hpo p (List.mem_cons_self p rest) hp
                    (popKey_mem _ _ _ _ hpop)
                exact ⟨⟨p, List.mem_cons_self p rest, rfl, hpnotpo, hvk, hvp⟩,
                  popKey_mem _ _ _ _ hpop⟩
            | tail _ hnm =>
                obtain ⟨⟨q, hq, hqs⟩, hkw⟩ := ih kwargs2
                  (fun q hq hq2 hmem => hpo q (List.mem_cons_of_mem _ hq) hq2
                    (popKey_keys_sub _ _ _ _ hpop _ hmem)) nm hnm
                exact ⟨⟨q, List.mem_cons_of_mem _ hq, hqs⟩,
                  popKey_keys_sub _ _ _ _ hpop _ hkw⟩

/-- `popNames` distributes over concatenation. -/
theorem popNames_append : ∀ (l1 l2 : List Param),
    popNames (l1 ++ l2) = popNames l1 ++ popNames l2 := by
  intro l1 l2
  induction l1 with
  | nil => simp [popNames]
  | cons p rest ih =>
      by_cases hv : p.kind = .varKw ∨ p.kind = .varPos <;>
        simp [popNames, hv, ih]

/-- Over non-variadic parameters, `popNames` is just the name list. -/
theorem popNames_all (l : List Param)
    (h : ∀ p ∈ l, p.kind ≠ .varKw ∧ p.kind ≠ .varPos) :
    popNames l = l.map Param.name := by
  induction l with
  | nil => rfl
  | cons p rest ih =>
      have hp := h p (List.mem_cons_self p rest)
      have : ¬(p.kind = .varKw ∨ p.kind = .varPos) := fun hc =>
        hc.elim hp.1 hp.2
      simp [popNames, this, ih (fun q hq => h q (List.mem_cons_of_mem _ hq))]

/-- Looking a key up past an append skips a first part that lacks it. -/
theorem lookupB_append_right (k : String) : ∀ (l1 l2 : Bindings),
    k ∉ keys l1 → lookupB k (l1 ++ l2) = lookupB k l2 := by
  intro l1 l2 h
  unfold lookupB
  rw [List.find?_append]
  have : l1.find? (fun kv => kv.1 = k) = none := by
    rw [List.find?_eq_none]
    intro kv hkv
    simp only [decide_eq_true_eq]
    exact fun he => h (he ▸ List.mem_map_of_mem Prod.fst hkv)
  rw [this, Option.none_or]

/-- The keys of an append. -/
theorem keys_append (l1 l2 : Bindings) :
    keys (l1 ++ l2) = keys l1 ++ keys l2 := by
  simp [keys]

/-- With a variadic-keyword parameter declared, the parameter list is the
prefix followed by that parameter. -/
theorem sigParams_varKw_decomp (s : Sig) (vkn : String) (t : STy)
    (h : s.varKw = some (vkn, t)) :
    sigParams s = prefixParams s ++ [Param.mk vkn .varKw false] := by
  simp [sigParams, prefixParams, h]

/-- No parameter of the prefix is variadic-keyword. -/
theorem prefixParams_no_varKw (s : Sig) :
    ∀ p ∈ prefixParams s, p.kind ≠ .varKw := by
  intro p hp
  simp only [prefixParams, List.mem_append, List.mem_map] at hp
  rcases hp with ((⟨q, _, rfl⟩ | ⟨q, _, rfl⟩) | hp) | ⟨q, _, rfl⟩
  · simp
  · simp
  · cases hvp : s.varPos with
    | none => rw [hvp] at hp; simp at hp
    | some w => rw [hvp] at hp; simp at hp; subst hp; simp
  · simp

/-- A positional-only parameter of the full list carries a positional-only
bucket name. -/
theorem sigParams_posOnly_names (s : Sig) :
    ∀ p ∈ sigParams s, p.kind = .posOnly → p.name ∈ posOnlyNames s := by
  intro p hp hk
  simp only [sigParams, List.mem_append, List.mem_map] at hp
  rcases hp with ((((⟨q, hq, rfl⟩ | ⟨q, _, rfl⟩) | hp) | ⟨q, _, rfl⟩) | hp)
  · exact List.mem_map_of_mem PDecl.name hq
  · cases hk
  · cases hvp : s.varPos with
    | none => rw [hvp] at hp; simp at hp
    | some w => rw [hvp] at hp; simp at hp; subst hp; cases hk
  · cases hk
  · cases hvk : s.varKw with
    | none => rw [hvk] at hp; simp at hp
    | some w => rw [hvk] at hp; simp at hp; subst hp; cases hk

/-- A positional-only bucket name is carried by a positional-only
parameter of the full list. -/
theorem posOnlyNames_mem_param (s : Sig) (n : String)
    (h : n ∈ posOnlyNames s) :
    ∃ q ∈ sigParams s, q.name = n ∧ q.kind = .posOnly := by
  obtain ⟨q, hq, rfl⟩ := List.mem_map.mp h
  refine ⟨⟨q.name, .posOnly, q.default.isSome⟩, ?_, rfl, rfl⟩
  simp only [sigParams, List.mem_append]
  exact Or.inl (Or.inl (Or.inl (Or.inl (List.mem_map_of_mem _ hq))))

/-- The poppable names of the prefix are the positional-only names
followed by `sig_kw`'s names. -/
theorem popNames_prefixParams (s : Sig) :
    popNames (prefixParams s) = posOnlyNames s ++ sigKwNames s := by
  have hk1 : ∀ p ∈ s.posOnly.map
      (fun p => Param.mk p.name .posOnly p.default.isSome),
      p.kind ≠ .varKw ∧ p.kind ≠ .varPos := by
    intro p hp
    obtain ⟨q, hq, rfl⟩ := List.mem_map.mp hp
    simp
  have hk2 : ∀ p ∈ s.posOrKw.map
      (fun p => Param.mk p.name .posOrKw p.default.isSome),
      p.kind ≠ .varKw ∧ p.kind ≠ .varPos := by
    intro p hp
    obtain ⟨q, hq, rfl⟩ := List.mem_map.mp hp
    simp
  have hk4 : ∀ p ∈ s.kwOnly.map
      (fun p => Param.mk p.name .kwOnly p.default.isSome),
      p.kind ≠ .varKw ∧ p.kind ≠ .varPos := by
    intro p hp
    obtain ⟨q, hq, rfl⟩ := List.mem_map.mp hp
    simp
  have h3 : popNames ((s.varPos.map
      (fun v => Param.mk v.1 .varPos false)).toList) = [] := by
    cases hvp : s.varPos with
    | none => rfl
    | some w => simp [popNames]
  unfold prefixParams
  rw [popNames_append, popNames_append, popNames_append,
    popNames_all _ hk1, popNames_all _ hk2, popNames_all _ hk4, h3]
  simp only [posOnlyNames, sigKwNames, List.map_map, List.nil_append,
    List.append_assoc]
  rfl

/-- On a signature declaring a variadic-keyword parameter, a keyword-only
partial bind with no positional-only name among the keys always succeeds:
matching names are popped in parameter order and the leftovers land in the
variadic-keyword bucket. -/
theorem probeBind_varKw_ok (s : Sig) (kwargs : Bindings) (vkn : String)
    (t : STy) (hvk : s.varKw = some (vkn, t))
    (hpo : ∀ n ∈ keys kwargs, n ∉ posOnlyNames s) :
    probeBind s [] kwargs =
      .ok (kwPhase (prefixParams s) kwargs ++
        vkTail vkn (kwLeft (prefixParams s) kwargs)) := by
  have hdecomp := sigParams_varKw_decomp s vkn t hvk
  have hpoP : ∀ p ∈ sigParams s, p.kind = .posOnly →
      p.name ∉ keys kwargs := by
    intro p hp hk hmem
    exact hpo p.name hmem (sigParams_posOnly_names s p hp hk)
  have hpoPre : ∀ p ∈ prefixParams s, p.kind = .posOnly →
      p.name ∉ keys kwargs := by
    intro p hp
    exact hpoP p (by rw [hdecomp]; exact List.mem_append_left _ hp)
  obtain ⟨rem, hph1, hcase⟩ :=
    bindPosLoop_true_nil_args (keys kwargs) (sigParams s) hpoP
  have hred : probeBind s [] kwargs = bindKwLoop true rem kwargs [] none := by
    simp [probeBind, bindCommon, hph1]
  rw [hred]
  rcases hcase with rfl | ⟨p, rest, hps, hpk, rfl⟩
  · rw [hdecomp]
    exact bindKwLoop_run vkn false (prefixParams s) kwargs []
      (prefixParams_no_varKw s) hpoPre
  · cases hpre : prefixParams s with
    | nil =>
        rw [hpre, List.nil_append] at hdecomp
        have h0 := hdecomp.symm.trans hps
        obtain ⟨h1, -⟩ := List.cons.inj h0
        rw [← h1] at hpk
        simp at hpk
    | cons p0 P2 =>
        rw [hpre, List.cons_append] at hdecomp
        have h0 := hdecomp.symm.trans hps
        obtain ⟨h1, h2⟩ := List.cons.inj h0
        rw [← h2]
        have hsub : ∀ q ∈ P2, q ∈ prefixParams s := by
          intro q hq
          rw [hpre]
          exact List.mem_cons_of_mem _ hq
        rw [bindKwLoop_run vkn false P2 kwargs []
          (fun q hq => prefixParams_no_varKw s q (hsub q hq))
          (fun q hq => hpoPre q (hsub q hq))]
        have hp0 : p0.kind = .varPos := by rw [h1]; exact hpk
        simp [kwPhase, kwLeft, hp0]

/-- Claim C10 (amended): if the signature declares a variadic-keyword
parameter and no positional-only parameter name appears among the keyword
keys, the keyword-side stages never fail: stage 2 binds successfully,
every keyword name matching no positional-or-keyword or keyword-only
parameter is collected into the variadic-keyword mapping, stage 3 accepts
the bound map, and whenever the whole call succeeds those collected
entries are forwarded to the original callable inside that mapping. -/
theorem claim_C10 (s : Sig) (kwargs : Bindings) (vkn : String) (t : STy)
    (hvk : s.varKw = some (vkn, t))
    (hnames : ((sigParams s).map Param.name).Nodup)
    (hkwnod : (keys kwargs).Nodup)
    (hpos : ∀ n ∈ keys kwargs, n ∉ posOnlyNames s) :
    ∃ k2, validate_keyword s kwargs = .ok k2 ∧
      (∃ k3, validate_positional_only s k2 = .ok k3) ∧
      asDictList (lookupB vkn k2) =
        kwargs.filter (fun kv => ¬(sigKwNames s).contains kv.1) ∧
      (∀ (args pos : List Value) (kw : Bindings),
        applyCall s args kwargs = .ok (pos, kw) →
        ∃ pre, kw = pre ++
          kwargs.filter (fun kv => ¬(sigKwNames s).contains kv.1)) := by
  have hdecomp := sigParams_varKw_decomp s vkn t hvk
  have hvkp_mem : Param.mk vkn .varKw false ∈ sigParams s := by
    rw [hdecomp]
    exact List.mem_append_right _ (List.mem_singleton.mpr rfl)
  -- the stage 2 output
  set K := kwPhase (prefixParams s) kwargs ++
    vkTail vkn (kwLeft (prefixParams s) kwargs) with hK
  have hbind := probeBind_varKw_ok s kwargs vkn t hvk hpos
  have hstage2 : validate_keyword s kwargs = .ok K := by
    simp [validate_keyword, hbind]
  -- the leftover bucket in filter form
  have hleft : kwLeft (prefixParams s) kwargs =
      kwargs.filter (fun kv => ¬(sigKwNames s).contains kv.1) := by
    rw [kwLeft_eq_filter (prefixParams s) kwargs hkwnod]
    refine List.filter_congr ?_
    intro kv hkv
    have hnotpo : kv.1 ∉ posOnlyNames s :=
      hpos kv.1 (List.mem_map_of_mem Prod.fst hkv)
    rw [popNames_prefixParams]
    by_cases hb : kv.1 ∈ sigKwNames s <;>
      simp [List.mem_append, hb, hnotpo]
  -- positional-only names never make it into the popped part of K
  have hpoPre : ∀ p ∈ prefixParams s, p.kind = .posOnly →
      p.name ∉ keys kwargs := by
    intro p hp hk hmem
    exact hpos p.name hmem (sigParams_posOnly_names s p
      (by rw [hdecomp]; exact List.mem_append_left _ hp) hk)
  have hvkn_notin : vkn ∉ keys (kwPhase (prefixParams s) kwargs) := by
    intro hmem
    obtain ⟨⟨q, hq, hqname, _, hqvk, _⟩, _⟩ :=
      kwPhase_keys (prefixParams s) kwargs hpoPre vkn hmem
    have hq_sig : q ∈ sigParams s := by
      rw [hdecomp]
      exact List.mem_append_left _ hq
    have hqeq : q = Param.mk vkn .varKw false :=
      List.inj_on_of_nodup_map hnames hq_sig hvkp_mem (by rw [hqname])
    rw [hqeq] at hqvk
    exact hqvk rfl
  -- the variadic-keyword bucket of K holds exactly the leftovers
  have hlookup : asDictList (lookupB vkn K) =
      kwLeft (prefixParams s) kwargs := by
    rw [hK, lookupB_append_right vkn _ _ hvkn_notin]
    cases hL : kwLeft (prefixParams s) kwargs with
    | nil => simp [vkTail, lookupB, asDictList]
    | cons kv rest => simp [vkTail, lookupB, asDictList]
  -- K itself has no positional-only key, so stage 3 rebinds fine
  have hposK : ∀ n ∈ keys K, n ∉ posOnlyNames s := by
    intro n hn hpo_n
    obtain ⟨r, hr, hrname, hrkind⟩ := posOnlyNames_mem_param s n hpo_n
    rw [hK, keys_append] at hn
    rcases List.mem_append.mp hn with hn | hn
    · obtain ⟨⟨q, hq, hqname, hqpo, _, _⟩, _⟩ :=
        kwPhase_keys (prefixParams s) kwargs hpoPre n hn
      have hq_sig : q ∈ sigParams s := by
        rw [hdecomp]
        exact List.mem_append_left _ hq
      have hqeq : q = r := List.inj_on_of_nodup_map hnames hq_sig hr
        (by rw [hqname, hrname])
      rw [hqeq, hrkind] at hqpo
      exact hqpo rfl
    · have hn_vkn : n = vkn := by
        unfold vkTail at hn
        by_cases hE : (kwLeft (prefixParams s) kwargs).isEmpty
        · rw [if_pos hE] at hn
          exact absurd hn (List.not_mem_nil n)
        · rw [if_neg hE] at hn
          simpa [keys] using hn
      have hreq : Param.mk vkn .varKw false = r :=
        List.inj_on_of_nodup_map hnames hvkp_mem hr
          (by rw [hrname, hn_vkn])
      rw [← hreq] at hrkind
      cases hrkind
  have hbindK := probeBind_varKw_ok s K vkn t hvk hposK
  have hstage3 : validate_positional_only s K =
      .ok (kwPhase (prefixParams s) K ++
        vkTail vkn (kwLeft (prefixParams s) K)) := by
    simp [validate_positional_only, hbindK]
  refine ⟨K, hstage2, ⟨_, hstage3⟩, by rw [hlookup, hleft], ?_⟩
  intro args pos kw happly
  cases h1 : validate_positional s args with
  | error e =>
      have hcontra : applyCall s args kwargs = .error e := by
        simp [applyCall, signatureCheck, h1]
      rw [hcontra] at happly
      cases happly
  | ok a2 =>
      cases h4 : validate_multi s a2 K with
      | error e =>
          have hcontra : applyCall s args kwargs = .error e := by
            simp [applyCall, signatureCheck, h1, hstage2, hstage3, h4]
          rw [hcontra] at happly
          cases happly
      | ok m =>
          have hsc : signatureCheck s args kwargs = .ok (a2, K) := by
            simp [signatureCheck, h1, hstage2, hstage3, h4]
          cases hmv : modelValidate (schemaFields s) (a2 ++ K) with
          | error errs =>
              have hcontra : applyCall s args kwargs =
                  .error (.validationErr errs) := by
                simp [applyCall, hsc, hmv]
              rw [hcontra] at happly
              cases happly
          | ok instd =>
              have happ2 : applyCall s args kwargs =
                  .ok (reconstruct s a2 K instd) := by
                simp [applyCall, hsc, hmv]
              rw [happ2] at happly
              injection happly with hrec
              have hkw := congrArg Prod.snd hrec
              simp only [reconstruct] at hkw
              refine ⟨(K.filter (fun kv =>
                Option.map Prod.fst s.varKw ≠ some kv.1)).map
                  (fun kv => (kv.1, (lookupB kv.1 instd).getD kv.2)), ?_⟩
              rw [← hkw, hvk]
              simp only [Option.map_some', Option.some_bind]
              rw [hlookup, hleft]

/-- Witness for claim C10 at the spec section 8 signature: the keyword
`extra=6`, matching no declared parameter, is accepted, lands in the `kw`
bucket, and is forwarded inside it. -/
theorem claim_C10_witness :
    ∃ k2, validate_keyword sig8 [("extra", .vint 6)] = .ok k2 ∧
      (∃ k3, validate_positional_only sig8 k2 = .ok k3) ∧
      asDictList (lookupB "kw" k2) =
        [("extra", .vint 6)].filter
          (fun kv => ¬(sigKwNames sig8).contains kv.1) ∧
      (∀ (args pos : List Value) (kw : Bindings),
        applyCall sig8 args [("extra", .vint 6)] = .ok (pos, kw) →
        ∃ pre, kw = pre ++ [("extra", .vint 6)].filter
          (fun kv => ¬(sigKwNames sig8).contains kv.1)) :=
  claim_C10 sig8 [("extra", .vint 6)] "kw" .int rfl (by decide) (by decide)
    (by decide)

end PydanticDecorator
